import Mathlib

/-!
Verification of the fbref-scrapy configuration-reconciliation algorithm.

This file gives a shallow embedding of the pure logic of
`fbref_scrapy/helpers.py` and `fbref_scrapy/config.py` and proves
properties about it.  Python dictionaries are embedded as association
lists (`List (String × α)`) preserving insertion order; Python dict
assignment is `dinsert` (update in place keeps the position, a new key is
appended at the end); Python's `dict[k]` lookup is `dlookup` (the
functions that can raise `KeyError` return `Except`); Python sets are
embedded membership-wise (deduplicated lists).  Numeric ranks are `Int`,
and the floating comparison `count > len * 0.7` is embedded as the exact
rational comparison `10 * count > 7 * len`.
-/

namespace FbrefScrapy

-- ## Definitions (shallow embedding of the source)

def dlookup {α : Type} : List (String × α) → String → Option α
  | [], _ => none
  | (k', v) :: rest, k => if k' = k then some v else dlookup rest k

def dinsert {α : Type} : List (String × α) → String → α → List (String × α)
  | [], k, v => [(k, v)]
  | (k', v') :: rest, k, v =>
    if k' = k then (k, v) :: rest else (k', v') :: dinsert rest k v

def dappend : List (String × List String) → String → String → List (String × List String)
  | [], k, x => [(k, [x])]
  | (k', l) :: rest, k, x =>
    if k' = k then (k', l ++ [x]) :: rest else (k', l) :: dappend rest k x

def select_top_priority (items : List String) (priority : List String) : Option String :=
  if items.length = 1 then items.head?
  else
    match h : priority.find? (fun p => items.contains p) with
    | none => none
    | some p => select_top_priority (items.erase p) (priority.erase p)
termination_by items.length
decreasing_by
  have hp : items.contains p = true := List.find?_some h
  have hm : p ∈ items := by simpa using hp
  have := List.length_erase_of_mem hm
  have hpos : 0 < items.length := List.length_pos.mpr (List.ne_nil_of_mem hm)
  omega

def insertByRankDesc (x : String × Int) : List (String × Int) → List (String × Int)
  | [] => [x]
  | y :: ys => if y.2 < x.2 then x :: y :: ys else y :: insertByRankDesc x ys

def sortByRankDesc (l : List (String × Int)) : List (String × Int) :=
  l.foldl (fun acc x => insertByRankDesc x acc) []

def OutMem (d : List (String × List String)) (c v : String) : Prop :=
  ∃ l, dlookup d c = some l ∧ v ∈ l

inductive RdvError where
  | unranked (named : List String)
  | keyError
  deriving DecidableEq, Repr

def catListFor (varsDict : List (String × List String)) (v : String) :
    List String → Except RdvError (List String)
  | [] => .ok []
  | c :: cs =>
    match dlookup varsDict c with
    | none => .error .keyError
    | some vs =>
      match catListFor varsDict v cs with
      | .error e => .error e
      | .ok rest => .ok (if v ∈ vs then c :: rest else rest)

def candidateCats (varsDict : List (String × List String)) (categories : List String)
    (v : String) : List String :=
  categories.filter (fun c => (dlookup varsDict c).getD [] |>.contains v)

def entryFor (varsDict : List (String × List String)) (categories priorities : List String)
    (all_vars : List String) (v : String) : Option String :=
  if 10 * all_vars.count v > 7 * categories.length
      ∧ "summary" ∈ candidateCats varsDict categories v
  then some "summary"
  else select_top_priority (candidateCats varsDict categories v) priorities

def buildVarMap (varsDict : List (String × List String)) (categories priorities : List String)
    (all_vars : List String) : List String → Except RdvError (List (String × Option String))
  | [] => .ok []
  | v :: vs =>
    match catListFor varsDict v categories with
    | .error e => .error e
    | .ok cats =>
      let entry := if 10 * all_vars.count v > 7 * categories.length ∧ "summary" ∈ cats
        then some "summary"
        else select_top_priority cats priorities
      match buildVarMap varsDict categories priorities all_vars vs with
      | .error e => .error e
      | .ok rest => .ok ((v, entry) :: rest)

def appendVars (var_map : List (String × Option String)) (cat : String) :
    List String → List (String × List String) → Except RdvError (List (String × List String))
  | [], out => .ok out
  | v :: vs, out =>
    match dlookup var_map v with
    | none => .error .keyError
    | some o => appendVars var_map cat vs (if o = some cat then dappend out cat v else out)

def buildOutput (var_map : List (String × Option String)) :
    List (String × List String) → List (String × List String) →
    Except RdvError (List (String × List String))
  | [], out => .ok out
  | (cat, vs) :: rest, out =>
    match appendVars var_map cat vs out with
    | .error e => .error e
    | .ok out' => buildOutput var_map rest out'

def remove_duplicate_values (varsDict : List (String × List String))
    (ranks : List (String × Int)) : Except RdvError (List (String × List String)) :=
  let categories := ranks.map Prod.fst
  let priorities := (sortByRankDesc ranks).map Prod.fst
  if ∀ k ∈ varsDict.map Prod.fst, k ∈ priorities then
    let all_vars := (varsDict.map Prod.snd).flatten
    let unique_vars := all_vars.dedup
    match buildVarMap varsDict categories priorities all_vars unique_vars with
    | .error e => .error e
    | .ok var_map => buildOutput var_map varsDict []
  else
    .error (.unranked (priorities.filter (fun p => ¬ p ∈ varsDict.map Prod.fst)))

def find_difference (left right : List (String × List String)) :
    List (String × List String) :=
  (left.map (fun p =>
    match dlookup right p.1 with
    | some rvs => (p.1, p.2.dedup.filter (fun v => ¬ rvs.contains v))
    | none => p)).filter (fun p => ¬ p.2 = [])

def update_tables (setting : List (String × Int)) (observed : List String) :
    List (String × Int) × Option (List String) :=
  let table_types := observed.dedup
  if ¬ setting = [] ∧ ∀ t ∈ table_types, t ∈ setting.map Prod.fst then
    (setting, none)
  else
    let added := table_types.filter (fun t => ¬ t ∈ setting.map Prod.fst)
    let new_settings := added.foldl (fun s t =>
      if t = "summary" then dinsert s t (table_types.length : Int)
      else if t = "misc" then dinsert s t ((table_types.length : Int) - 1)
      else dinsert s t 1) setting
    (new_settings, some added)

def rankFor (t : String) (n : Int) : Int :=
  if t = "summary" then n else if t = "misc" then n - 1 else 1

structure StatTable where
  id : String
  headers : List String
  deriving DecidableEq, Repr

structure Page where
  squad0 : String
  squad1 : String
  tables : List StatTable
  deriving DecidableEq, Repr

def removeAll (pat : List Char) : List Char → List Char
  | [] => []
  | c :: rest =>
    if pat.isPrefixOf (c :: rest) ∧ 0 < pat.length then
      removeAll pat ((c :: rest).drop pat.length)
    else c :: removeAll pat rest
termination_by l => l.length
decreasing_by
  · simp only [List.length_drop, List.length_cons]
    omega
  · simp

def stripSpaceUnderscore (s : List Char) : List Char :=
  ((s.dropWhile (fun c => c = ' ' ∨ c = '_')).reverse.dropWhile
    (fun c => c = ' ' ∨ c = '_')).reverse

def deriveType (p : Page) (t : StatTable) : String :=
  String.mk (stripSpaceUnderscore
    (removeAll p.squad1.data (removeAll p.squad0.data (removeAll "stats".data t.id.data))))

def containsSub (pat : List Char) : List Char → Bool
  | [] => pat.isEmpty
  | c :: rest => pat.isPrefixOf (c :: rest) || containsSub pat rest

def statsTables (p : Page) : List StatTable :=
  p.tables.filter (fun t => containsSub "stats".data t.id.data)

def get_table_types_loop : List Page → List (StatTable × String) →
    Option (List (StatTable × String))
  | [], acc => some acc
  | p :: ps, acc =>
    if statsTables p = [] then none
    else get_table_types_loop ps (acc ++ (statsTables p).map (fun t => (t, deriveType p t)))

def get_table_types (pages : List Page) : Option (List (StatTable × String)) :=
  get_table_types_loop pages []

def get_all_variables (pages : List Page) :
    Except String (List (String × List String)) :=
  match get_table_types pages with
  | none => .error "No valid stats tables found."
  | some tables =>
    if tables = [] then .error "No valid stats tables found."
    else .ok (tables.foldl (fun all_vars tc =>
      tc.1.headers.foldl (fun av v =>
        match dlookup av tc.2 with
        | some vs => if v ∈ vs then av else dinsert av tc.2 (vs ++ [v])
        | none => av ++ [(tc.2, [v])]) all_vars) [])

def pageWithStatsTable : Page :=
  ⟨"aaa", "bbb", [⟨"stats_aaa_summary", ["x"]⟩]⟩

def pageWithoutTables : Page :=
  ⟨"ccc", "ddd", []⟩

-- ## Theorems

theorem dlookup_eq_some_mem {α : Type} {d : List (String × α)} {k : String} {v : α}
    (h : dlookup d k = some v) : (k, v) ∈ d := by
  induction d with
  | nil => simp [dlookup] at h
  | cons p rest ih =>
    obtain ⟨k', v'⟩ := p
    by_cases hk : k' = k
    · subst hk
      simp [dlookup] at h
      simp [h]
    · simp [dlookup, hk] at h
      exact List.mem_cons_of_mem _ (ih h)

theorem mem_dlookup {α : Type} {d : List (String × α)} {k : String} {v : α}
    (hnd : (d.map Prod.fst).Nodup) (h : (k, v) ∈ d) : dlookup d k = some v := by
  induction d with
  | nil => simp at h
  | cons p rest ih =>
    obtain ⟨k', v'⟩ := p
    simp only [List.map_cons, List.nodup_cons] at hnd
    rcases List.mem_cons.mp h with h1 | h1
    · cases h1
      simp [dlookup]
    · have hk : k' ≠ k := by
        intro he
        subst he
        exact hnd.1 (List.mem_map.mpr ⟨(k', v), h1, rfl⟩)
      simp [dlookup, hk]
      exact ih hnd.2 h1

theorem dlookup_isSome_iff {α : Type} {d : List (String × α)} {k : String} :
    (dlookup d k).isSome ↔ k ∈ d.map Prod.fst := by
  induction d with
  | nil => simp [dlookup]
  | cons p rest ih =>
    obtain ⟨k', v'⟩ := p
    by_cases hk : k' = k
    · subst hk
      simp [dlookup]
    · simp [dlookup, hk, ih, Ne.symm hk]

theorem dlookup_eq_none_iff {α : Type} {d : List (String × α)} {k : String} :
    dlookup d k = none ↔ k ∉ d.map Prod.fst := by
  rw [← dlookup_isSome_iff]
  cases h : dlookup d k <;> simp [h]

theorem dlookup_dinsert {α : Type} (d : List (String × α)) (k k' : String) (v : α) :
    dlookup (dinsert d k v) k' = if k = k' then some v else dlookup d k' := by
  induction d with
  | nil => by_cases h : k = k' <;> simp [dinsert, dlookup, h]
  | cons p rest ih =>
    obtain ⟨k0, v0⟩ := p
    by_cases h0 : k0 = k
    · subst h0
      by_cases h1 : k0 = k' <;> simp [dinsert, dlookup, h1]
    · by_cases h1 : k0 = k'
      · subst h1
        have : k ≠ k0 := Ne.symm h0
        simp [dinsert, h0, dlookup, this]
      · simp [dinsert, h0, dlookup, h1, ih]

theorem dinsert_keys_mem {α : Type} (d : List (String × α)) (k a : String) (v : α)
    (h : a ∈ d.map Prod.fst ∨ a = k) : a ∈ (dinsert d k v).map Prod.fst := by
  induction d with
  | nil =>
    rcases h with h | h
    · simp at h
    · simp [dinsert, h]
  | cons p rest ih =>
    obtain ⟨k0, v0⟩ := p
    by_cases h0 : k0 = k
    · subst h0
      rcases h with h | h <;> simp_all [dinsert]
    · rcases h with h | h
      · rcases List.mem_map.mp h with ⟨q, hq, hfst⟩
        rcases List.mem_cons.mp hq with h1 | h1
        · subst h1
          simp [dinsert, h0, ← hfst]
        · simp only [dinsert, h0, if_false, List.map_cons, List.mem_cons]
          exact Or.inr (ih (Or.inl (List.mem_map.mpr ⟨q, h1, hfst⟩)))
      · simp only [dinsert, h0, if_false, List.map_cons, List.mem_cons]
        exact Or.inr (ih (Or.inr h))

theorem dlookup_dappend (d : List (String × List String)) (k k' x : String) :
    dlookup (dappend d k x) k' =
      if k = k' then some ((dlookup d k).getD [] ++ [x]) else dlookup d k' := by
  induction d with
  | nil => by_cases h : k = k' <;> simp [dappend, dlookup, h]
  | cons p rest ih =>
    obtain ⟨k0, l0⟩ := p
    by_cases h0 : k0 = k
    · subst h0
      by_cases h1 : k0 = k' <;> simp [dappend, dlookup, h1]
    · by_cases h1 : k0 = k'
      · subst h1
        have hne : k ≠ k0 := Ne.symm h0
        simp [dappend, h0, dlookup, hne]
      · simp [dappend, h0, dlookup, h1, ih]

theorem dappend_keys (d : List (String × List String)) (k x : String) :
    (dappend d k x).map Prod.fst =
      if k ∈ d.map Prod.fst then d.map Prod.fst else d.map Prod.fst ++ [k] := by
  induction d with
  | nil => simp [dappend]
  | cons p rest ih =>
    obtain ⟨k0, l0⟩ := p
    by_cases h0 : k0 = k
    · subst h0
      simp [dappend]
    · have : ¬ k = k0 := Ne.symm h0
      by_cases hm : k ∈ rest.map Prod.fst <;>
        simp [dappend, h0, ih, hm, this]

theorem dappend_keys_nodup {d : List (String × List String)} (hnd : (d.map Prod.fst).Nodup)
    (k x : String) : ((dappend d k x).map Prod.fst).Nodup := by
  rw [dappend_keys]
  by_cases hm : k ∈ d.map Prod.fst
  · simpa [hm]
  · simp only [hm, if_false]
    rw [List.nodup_append]
    refine ⟨hnd, List.nodup_singleton k, ?_⟩
    intro a ha hb
    have : a = k := by simpa using hb
    subst this
    exact hm ha

theorem OutMem_dappend {d : List (String × List String)} {k x c v : String} :
    OutMem (dappend d k x) c v ↔ OutMem d c v ∨ (c = k ∧ v = x) := by
  by_cases h : k = c
  · subst h
    cases hd : dlookup d k with
    | none => simp [OutMem, dlookup_dappend, hd]
    | some l => simp [OutMem, dlookup_dappend, hd]
  · have h' : ¬ c = k := fun he => h he.symm
    simp [OutMem, dlookup_dappend, h, h']

theorem mem_insertByRankDesc {x y : String × Int} {l : List (String × Int)} :
    y ∈ insertByRankDesc x l ↔ y = x ∨ y ∈ l := by
  induction l with
  | nil => simp [insertByRankDesc]
  | cons z zs ih =>
    by_cases h : z.2 < x.2
    · simp [insertByRankDesc, h]
    · simp [insertByRankDesc, h, ih]
      tauto

theorem insertByRankDesc_perm (x : String × Int) (l : List (String × Int)) :
    List.Perm (insertByRankDesc x l) (x :: l) := by
  induction l with
  | nil => simp [insertByRankDesc]
  | cons z zs ih =>
    by_cases h : z.2 < x.2
    · simp [insertByRankDesc, h]
    · simp only [insertByRankDesc, h, if_false]
      exact ((ih.cons z).trans (List.Perm.swap x z zs))

theorem foldl_insertByRankDesc_perm (l : List (String × Int)) :
    ∀ acc : List (String × Int),
      List.Perm (l.foldl (fun a x => insertByRankDesc x a) acc) (acc ++ l) := by
  induction l with
  | nil => intro acc; simp
  | cons x xs ih =>
    intro acc
    have h1 : (x :: xs).foldl (fun a x => insertByRankDesc x a) acc
        = xs.foldl (fun a x => insertByRankDesc x a) (insertByRankDesc x acc) := rfl
    rw [h1]
    refine ((ih _).trans ?_)
    refine (List.Perm.append_right xs (insertByRankDesc_perm x acc)).trans ?_
    exact List.perm_middle.symm

theorem sortByRankDesc_perm (l : List (String × Int)) : List.Perm (sortByRankDesc l) l := by
  simpa [sortByRankDesc] using foldl_insertByRankDesc_perm l []

theorem pairwise_insertByRankDesc {x : String × Int} {l : List (String × Int)}
    (h : l.Pairwise (fun a b => b.2 ≤ a.2)) :
    (insertByRankDesc x l).Pairwise (fun a b => b.2 ≤ a.2) := by
  induction l with
  | nil => simp [insertByRankDesc]
  | cons z zs ih =>
    rw [List.pairwise_cons] at h
    by_cases hz : z.2 < x.2
    · simp only [insertByRankDesc, hz, if_true]
      refine List.Pairwise.cons ?_ (List.Pairwise.cons h.1 h.2)
      intro b hb
      rcases List.mem_cons.mp hb with h1 | h1
      · exact le_of_lt (h1 ▸ hz)
      · exact le_trans (h.1 b h1) (le_of_lt hz)
    · simp only [insertByRankDesc, hz, if_false]
      refine List.Pairwise.cons ?_ (ih h.2)
      intro b hb
      rcases mem_insertByRankDesc.mp hb with h1 | h1
      · subst h1
        exact not_lt.mp hz
      · exact h.1 b h1

theorem sortByRankDesc_pairwise (l : List (String × Int)) :
    (sortByRankDesc l).Pairwise (fun a b => b.2 ≤ a.2) := by
  unfold sortByRankDesc
  have : ∀ acc : List (String × Int), acc.Pairwise (fun a b => b.2 ≤ a.2) →
      (l.foldl (fun a x => insertByRankDesc x a) acc).Pairwise (fun a b => b.2 ≤ a.2) := by
    induction l with
    | nil => intro acc h; simpa using h
    | cons x xs ih => intro acc h; exact ih _ (pairwise_insertByRankDesc h)
  exact this [] (by simp)

theorem find?_contains_cons_notin {items pr : List String} {q : String} (hq : q ∉ items) :
    (q :: pr).find? (fun p => items.contains p) = pr.find? (fun p => items.contains p) := by
  apply List.find?_cons_of_neg
  simpa using hq

theorem stp_cons_notin : ∀ (n : Nat) (items : List String) (q : String) (pr : List String),
    items.length ≤ n → q ∉ items →
    select_top_priority items (q :: pr) = select_top_priority items pr := by
  intro n
  induction n with
  | zero =>
    intro items q pr hlen hq
    have hnil : items = [] := List.eq_nil_of_length_eq_zero (Nat.le_zero.mp hlen)
    subst hnil
    rw [select_top_priority.eq_def, select_top_priority.eq_def]
    simp only [List.length_nil, if_neg (by omega : ¬ (0 = 1))]
    rw [find?_contains_cons_notin hq]
    cases hf : pr.find? (fun p => List.contains [] p) with
    | none => simp
    | some p =>
      have := List.find?_some hf
      simp at this
  | succ n ih =>
    intro items q pr hlen hq
    by_cases h1 : items.length = 1
    · rw [select_top_priority.eq_def, select_top_priority.eq_def]
      simp [h1]
    · rw [select_top_priority.eq_def, select_top_priority.eq_def]
      simp only [h1, if_false]
      rw [find?_contains_cons_notin hq]
      cases hf : pr.find? (fun p => items.contains p) with
      | none => simp
      | some p =>
        have hp : p ∈ items := by simpa using List.find?_some hf
        have hqp : ¬ q = p := fun he => hq (he ▸ hp)
        simp only
        rw [List.erase_cons_tail]
        · have hlen' : (items.erase p).length ≤ n := by
            have := List.length_erase_of_mem hp
            omega
          exact ih (items.erase p) q (pr.erase p) hlen'
            (fun hmem => hq (List.mem_of_mem_erase hmem))
        · simpa using hqp

theorem filter_contains_single {pr : List String} {x : String} (hnd : pr.Nodup) (hx : x ∈ pr) :
    pr.filter (fun c => [x].contains c) = [x] := by
  induction pr with
  | nil => simp at hx
  | cons q qr ih =>
    rw [List.nodup_cons] at hnd
    by_cases hq : q = x
    · subst hq
      have hrest : qr.filter (fun c => [q].contains c) = [] := by
        rw [List.filter_eq_nil_iff]
        intro a ha
        have hne : ¬ a = q := fun he => hnd.1 (he ▸ ha)
        simpa using hne
      rw [List.filter_cons, hrest, if_pos (show ([q].contains q) = true by simp)]
    · have hx' : x ∈ qr := by
        rcases List.mem_cons.mp hx with h | h
        · exact absurd h.symm hq
        · exact h
      rw [List.filter_cons, if_neg (show ¬ ([x].contains q) = true by simpa using hq)]
      exact ih hnd.2 hx'

theorem stp_filter_getLast_aux : ∀ (n : Nat) (items pr : List String), items.length ≤ n →
    items.Nodup → pr.Nodup → items ≠ [] → (∀ x ∈ items, x ∈ pr) →
    select_top_priority items pr = (pr.filter (fun c => items.contains c)).getLast? := by
  intro n
  induction n with
  | zero =>
    intro items pr hlen _ _ hne _
    exact absurd (List.eq_nil_of_length_eq_zero (Nat.le_zero.mp hlen)) hne
  | succ n ih =>
    intro items pr hlen hndi hndp hne hsub
    by_cases h1 : items.length = 1
    · obtain ⟨x, hx⟩ := List.length_eq_one.mp h1
      subst hx
      rw [select_top_priority.eq_def]
      simp only [List.length_singleton, if_pos rfl, List.head?_cons]
      rw [filter_contains_single hndp (hsub x (by simp))]
      rfl
    · have hlen2 : 2 ≤ items.length := by
        have := List.length_pos.mpr hne
        omega
      revert hndp hsub
      induction pr with
      | nil =>
        intro _ hsub
        obtain ⟨y, hy⟩ := List.exists_mem_of_ne_nil items hne
        exact absurd (hsub y hy) (List.not_mem_nil y)
      | cons q pr' ihpr =>
        intro hndp hsub
        rw [List.nodup_cons] at hndp
        by_cases hq : q ∈ items
        · -- q is the first priority item present: it is erased and we recurse
          rw [select_top_priority.eq_def]
          simp only [h1, if_false]
          rw [List.find?_cons_of_pos _ (by simpa using hq)]
          simp only [List.erase_cons_head]
          have hlen' : (items.erase q).length ≤ n := by
            have := List.length_erase_of_mem hq
            omega
          have hne' : items.erase q ≠ [] := by
            have : 0 < (items.erase q).length := by
              have := List.length_erase_of_mem hq
              omega
            exact List.ne_nil_of_length_pos this
          have hsub' : ∀ x ∈ items.erase q, x ∈ pr' := by
            intro x hx
            have hx' := (List.Nodup.mem_erase_iff hndi).mp hx
            rcases List.mem_cons.mp (hsub x hx'.2) with h | h
            · exact absurd h hx'.1
            · exact h
          rw [ih (items.erase q) pr' hlen' (hndi.erase q) hndp.2 hne' hsub']
          have hfc : pr'.filter (fun c => (items.erase q).contains c)
              = pr'.filter (fun c => items.contains c) := by
            apply List.filter_congr
            intro c hc
            have hcq : c ≠ q := fun he => hndp.1 (he ▸ hc)
            have hiff : c ∈ items.erase q ↔ c ∈ items := List.mem_erase_of_ne hcq
            by_cases hm : c ∈ items
            · have h2 := hiff.mpr hm
              simp [hm, h2]
            · have h2 : c ∉ items.erase q := fun h => hm (hiff.mp h)
              simp [hm, h2]
          rw [hfc]
          have hLne : pr'.filter (fun c => items.contains c) ≠ [] := by
            obtain ⟨y, hy⟩ := List.exists_mem_of_ne_nil _ hne'
            have hy1 := (List.Nodup.mem_erase_iff hndi).mp hy
            have hy2 : y ∈ pr' := hsub' y hy
            intro hnil
            have : y ∈ pr'.filter (fun c => items.contains c) := by
              rw [List.mem_filter]
              exact ⟨hy2, by simpa using hy1.2⟩
            rw [hnil] at this
            exact List.not_mem_nil y this
          have hsplit : (q :: pr').filter (fun c => items.contains c)
              = q :: pr'.filter (fun c => items.contains c) := by
            rw [List.filter_cons, if_pos (show items.contains q = true by simpa using hq)]
          rw [hsplit]
          obtain ⟨b, L, hbL⟩ := List.exists_cons_of_ne_nil hLne
          rw [hbL, List.getLast?_cons_cons]
        · -- q is not a candidate: it plays no role
          have hcq : ¬ items.contains q = true := by simpa using hq
          rw [stp_cons_notin (n + 1) items q pr' hlen hq]
          rw [ihpr hndp.2 (fun x hx => by
            rcases List.mem_cons.mp (hsub x hx) with h | h
            · exact absurd (h ▸ hx) hq
            · exact h)]
          rw [List.filter_cons, if_neg hcq]

theorem stp_filter_getLast {items pr : List String} (hndi : items.Nodup) (hndp : pr.Nodup)
    (hne : items ≠ []) (hsub : ∀ x ∈ items, x ∈ pr) :
    select_top_priority items pr = (pr.filter (fun c => items.contains c)).getLast? :=
  stp_filter_getLast_aux items.length items pr (le_refl _) hndi hndp hne hsub

theorem stp_mem {items pr : List String} (hndi : items.Nodup) (hndp : pr.Nodup)
    (hne : items ≠ []) (hsub : ∀ x ∈ items, x ∈ pr) :
    ∃ x, select_top_priority items pr = some x ∧ x ∈ items := by
  rw [stp_filter_getLast hndi hndp hne hsub]
  obtain ⟨y, hy⟩ := List.exists_mem_of_ne_nil items hne
  have hyf : y ∈ pr.filter (fun c => items.contains c) := by
    rw [List.mem_filter]
    exact ⟨hsub y hy, by simpa using hy⟩
  have hfne : pr.filter (fun c => items.contains c) ≠ [] := fun hnil => by
    rw [hnil] at hyf
    exact List.not_mem_nil y hyf
  refine ⟨(pr.filter (fun c => items.contains c)).getLast hfne,
    List.getLast?_eq_getLast _ hfne, ?_⟩
  have hmem : (pr.filter (fun c => items.contains c)).getLast hfne
      ∈ pr.filter (fun c => items.contains c) := List.getLast_mem hfne
  simpa using (List.mem_filter.mp hmem).2

theorem catListFor_ok_eq {D : List (String × List String)} {v : String} {cats cv : List String}
    (h : catListFor D v cats = .ok cv) : cv = candidateCats D cats v := by
  induction cats generalizing cv with
  | nil =>
    simp only [catListFor, Except.ok.injEq] at h
    subst h
    simp [candidateCats]
  | cons c cs ih =>
    rw [catListFor] at h
    cases hd : dlookup D c with
    | none => rw [hd] at h; exact absurd h (by simp)
    | some vs =>
      rw [hd] at h
      cases hrec : catListFor D v cs with
      | error e => rw [hrec] at h; exact absurd h (by simp)
      | ok rest =>
        rw [hrec] at h
        simp only [Except.ok.injEq] at h
        subst h
        rw [ih hrec]
        unfold candidateCats
        rw [List.filter_cons]
        by_cases hv : v ∈ vs
        · rw [if_pos hv, if_pos (by simp [hd, hv])]
        · rw [if_neg hv, if_neg (by simp [hd, hv])]

theorem catListFor_isOk {D : List (String × List String)} {cats : List String}
    (hall : ∀ c ∈ cats, c ∈ D.map Prod.fst) (v : String) :
    catListFor D v cats = .ok (candidateCats D cats v) := by
  induction cats with
  | nil => simp [catListFor, candidateCats]
  | cons c cs ih =>
    have hc : (dlookup D c).isSome := dlookup_isSome_iff.mpr (hall c (by simp))
    rw [catListFor]
    cases hd : dlookup D c with
    | none => rw [hd] at hc; simp at hc
    | some vs =>
      rw [ih (fun c hc => hall c (List.mem_cons_of_mem _ hc))]
      simp only
      unfold candidateCats
      rw [List.filter_cons]
      by_cases hv : v ∈ vs
      · rw [if_pos hv, if_pos (by simp [hd, hv])]
      · rw [if_neg hv, if_neg (by simp [hd, hv])]

theorem catListFor_err {D : List (String × List String)} {cats : List String} {c0 : String}
    (hc0 : c0 ∈ cats) (hmiss : c0 ∉ D.map Prod.fst) (v : String) :
    catListFor D v cats = .error .keyError := by
  induction cats with
  | nil => simp at hc0
  | cons c cs ih =>
    rw [catListFor]
    cases hd : dlookup D c with
    | none => simp
    | some vs =>
      have hcne : ¬ c = c0 := by
        intro he
        subst he
        rw [dlookup_eq_none_iff.mpr hmiss] at hd
        cases hd
      have hc0' : c0 ∈ cs := by
        rcases List.mem_cons.mp hc0 with h | h
        · exact absurd h.symm hcne
        · exact h
      rw [ih hc0']

theorem buildVarMap_eq_map {D : List (String × List String)} {cats pr av : List String}
    (hall : ∀ c ∈ cats, c ∈ D.map Prod.fst) :
    ∀ l : List String, buildVarMap D cats pr av l
      = .ok (l.map (fun v => (v, entryFor D cats pr av v))) := by
  intro l
  induction l with
  | nil => simp [buildVarMap]
  | cons v vs ih =>
    rw [buildVarMap, catListFor_isOk hall v]
    simp only
    rw [ih]
    rfl

theorem buildVarMap_err {D : List (String × List String)} {cats pr av : List String}
    {c0 : String} (hc0 : c0 ∈ cats) (hmiss : c0 ∉ D.map Prod.fst) (v : String)
    (vs : List String) :
    buildVarMap D cats pr av (v :: vs) = .error .keyError := by
  rw [buildVarMap, catListFor_err hc0 hmiss v]

theorem dlookup_map_entry {β : Type} {l : List String} {v : String} (f : String → β)
    (hv : v ∈ l) : dlookup (l.map (fun v => (v, f v))) v = some (f v) := by
  induction l with
  | nil => simp at hv
  | cons v0 vs ih =>
    by_cases h0 : v0 = v
    · subst h0
      simp [dlookup]
    · have hv' : v ∈ vs := by
        rcases List.mem_cons.mp hv with h | h
        · exact absurd h.symm h0
        · exact h
      simp only [List.map_cons, dlookup, h0, if_false]
      exact ih hv'

theorem appendVars_ok_mem {m : List (String × Option String)} {cat : String}
    {vs : List String} :
    ∀ {out0 out1 : List (String × List String)}, appendVars m cat vs out0 = .ok out1 →
    ∀ c v, OutMem out1 c v ↔
      OutMem out0 c v ∨ (c = cat ∧ v ∈ vs ∧ dlookup m v = some (some cat)) := by
  induction vs with
  | nil =>
    intro out0 out1 h c v
    simp only [appendVars, Except.ok.injEq] at h
    subst h
    simp
  | cons v0 vs' ih =>
    intro out0 out1 h c v
    rw [appendVars] at h
    cases hd : dlookup m v0 with
    | none => rw [hd] at h; exact absurd h (by simp)
    | some o =>
      rw [hd] at h
      simp only at h
      by_cases ho : o = some cat
      · rw [if_pos ho] at h
        subst ho
        rw [ih h]
        rw [OutMem_dappend]
        constructor
        · rintro ((hm | ⟨hc, hv⟩) | ⟨hc, hv, hl⟩)
          · exact Or.inl hm
          · exact Or.inr ⟨hc, by simp [hv], hv ▸ hd⟩
          · exact Or.inr ⟨hc, List.mem_cons_of_mem _ hv, hl⟩
        · rintro (hm | ⟨hc, hv, hl⟩)
          · exact Or.inl (Or.inl hm)
          · rcases List.mem_cons.mp hv with h1 | h1
            · exact Or.inl (Or.inr ⟨hc, h1⟩)
            · exact Or.inr ⟨hc, h1, hl⟩
      · rw [if_neg ho] at h
        rw [ih h]
        constructor
        · rintro (hm | ⟨hc, hv, hl⟩)
          · exact Or.inl hm
          · exact Or.inr ⟨hc, List.mem_cons_of_mem _ hv, hl⟩
        · rintro (hm | ⟨hc, hv, hl⟩)
          · exact Or.inl hm
          · rcases List.mem_cons.mp hv with h1 | h1
            · subst h1
              rw [hd] at hl
              simp only [Option.some.injEq] at hl
              exact absurd hl ho
            · exact Or.inr ⟨hc, h1, hl⟩

theorem appendVars_isOk {m : List (String × Option String)} {cat : String}
    {vs : List String} (hall : ∀ v ∈ vs, (dlookup m v).isSome) :
    ∀ out0 : List (String × List String), ∃ out1, appendVars m cat vs out0 = .ok out1 := by
  induction vs with
  | nil => intro out0; exact ⟨out0, rfl⟩
  | cons v0 vs' ih =>
    intro out0
    have h0 : (dlookup m v0).isSome := hall v0 (by simp)
    cases hd : dlookup m v0 with
    | none => rw [hd] at h0; simp at h0
    | some o =>
      obtain ⟨out1, hout1⟩ := ih (fun v hv => hall v (List.mem_cons_of_mem _ hv))
        (if o = some cat then dappend out0 cat v0 else out0)
      exact ⟨out1, by rw [appendVars, hd]; exact hout1⟩

theorem appendVars_keys_nodup {m : List (String × Option String)} {cat : String}
    {vs : List String} :
    ∀ {out0 out1 : List (String × List String)}, appendVars m cat vs out0 = .ok out1 →
    (out0.map Prod.fst).Nodup → (out1.map Prod.fst).Nodup := by
  induction vs with
  | nil =>
    intro out0 out1 h hnd
    simp only [appendVars, Except.ok.injEq] at h
    subst h
    exact hnd
  | cons v0 vs' ih =>
    intro out0 out1 h hnd
    rw [appendVars] at h
    cases hd : dlookup m v0 with
    | none => rw [hd] at h; exact absurd h (by simp)
    | some o =>
      rw [hd] at h
      simp only at h
      by_cases ho : o = some cat
      · rw [if_pos ho] at h
        exact ih h (dappend_keys_nodup hnd cat v0)
      · rw [if_neg ho] at h
        exact ih h hnd

theorem buildOutput_mem {m : List (String × Option String)} :
    ∀ {V : List (String × List String)} {out0 out : List (String × List String)},
    buildOutput m V out0 = .ok out →
    ∀ c v, OutMem out c v ↔
      OutMem out0 c v ∨ ∃ l, (c, l) ∈ V ∧ v ∈ l ∧ dlookup m v = some (some c) := by
  intro V
  induction V with
  | nil =>
    intro out0 out h c v
    simp only [buildOutput, Except.ok.injEq] at h
    subst h
    simp
  | cons p rest ih =>
    intro out0 out h c v
    obtain ⟨cat, vs⟩ := p
    rw [buildOutput] at h
    cases ha : appendVars m cat vs out0 with
    | error e => rw [ha] at h; exact absurd h (by simp)
    | ok out' =>
      rw [ha] at h
      simp only at h
      rw [ih h, appendVars_ok_mem ha]
      constructor
      · rintro ((hm | ⟨hc, hv, hl⟩) | ⟨l, hl1, hl2, hl3⟩)
        · exact Or.inl hm
        · exact Or.inr ⟨vs, by simp [hc], hv, hc ▸ hl⟩
        · exact Or.inr ⟨l, List.mem_cons_of_mem _ hl1, hl2, hl3⟩
      · rintro (hm | ⟨l, hl1, hl2, hl3⟩)
        · exact Or.inl (Or.inl hm)
        · rcases List.mem_cons.mp hl1 with h1 | h1
          · have hc : c = cat ∧ l = vs := by
              have := Prod.mk.injEq c l cat vs ▸ h1
              exact ⟨this.1, this.2⟩
            exact Or.inl (Or.inr ⟨hc.1, hc.2 ▸ hl2, hc.1 ▸ hl3⟩)
          · exact Or.inr ⟨l, h1, hl2, hl3⟩

theorem buildOutput_isOk {m : List (String × Option String)} :
    ∀ {V : List (String × List String)},
    (∀ p ∈ V, ∀ v ∈ p.2, (dlookup m v).isSome) →
    ∀ out0 : List (String × List String), ∃ out, buildOutput m V out0 = .ok out := by
  intro V
  induction V with
  | nil => intro _ out0; exact ⟨out0, rfl⟩
  | cons p rest ih =>
    intro hall out0
    obtain ⟨cat, vs⟩ := p
    obtain ⟨out', hout'⟩ := @appendVars_isOk m cat vs
      (fun v hv => hall (cat, vs) (by simp) v hv) out0
    obtain ⟨out, hout⟩ := ih (fun p hp v hv => hall p (List.mem_cons_of_mem _ hp) v hv) out'
    exact ⟨out, by rw [buildOutput, hout']; exact hout⟩

theorem buildOutput_keys_nodup {m : List (String × Option String)} :
    ∀ {V : List (String × List String)} {out0 out : List (String × List String)},
    buildOutput m V out0 = .ok out →
    (out0.map Prod.fst).Nodup → (out.map Prod.fst).Nodup := by
  intro V
  induction V with
  | nil =>
    intro out0 out h hnd
    simp only [buildOutput, Except.ok.injEq] at h
    subst h
    exact hnd
  | cons p rest ih =>
    intro out0 out h hnd
    obtain ⟨cat, vs⟩ := p
    rw [buildOutput] at h
    cases ha : appendVars m cat vs out0 with
    | error e => rw [ha] at h; exact absurd h (by simp)
    | ok out' =>
      rw [ha] at h
      simp only at h
      exact ih h (appendVars_keys_nodup ha hnd)

theorem OutMem_nil {c v : String} : ¬ OutMem [] c v := by
  simp [OutMem, dlookup]

theorem mem_sorted_keys {R : List (String × Int)} {k : String} :
    k ∈ (sortByRankDesc R).map Prod.fst ↔ k ∈ R.map Prod.fst :=
  ((sortByRankDesc_perm R).map Prod.fst).mem_iff

theorem rdv_ok_char (D : List (String × List String)) (R : List (String × Int))
    (hVR : ∀ k ∈ D.map Prod.fst, k ∈ R.map Prod.fst)
    (hRV : ∀ k ∈ R.map Prod.fst, k ∈ D.map Prod.fst) :
    ∃ out, remove_duplicate_values D R = .ok out ∧
      (out.map Prod.fst).Nodup ∧
      ∀ c v, OutMem out c v ↔
        ((∃ l, (c, l) ∈ D ∧ v ∈ l) ∧
          entryFor D (R.map Prod.fst) ((sortByRankDesc R).map Prod.fst)
            ((D.map Prod.snd).flatten) v = some c) := by
  have hcheck : ∀ k ∈ D.map Prod.fst, k ∈ (sortByRankDesc R).map Prod.fst :=
    fun k hk => mem_sorted_keys.mpr (hVR k hk)
  have hbm := @buildVarMap_eq_map D (R.map Prod.fst) ((sortByRankDesc R).map Prod.fst)
    ((D.map Prod.snd).flatten) hRV ((D.map Prod.snd).flatten).dedup
  have hmemdedup : ∀ p ∈ D, ∀ v ∈ p.2, v ∈ ((D.map Prod.snd).flatten).dedup := by
    intro p hp v hv
    rw [List.mem_dedup]
    exact List.mem_flatten.mpr ⟨p.2, List.mem_map.mpr ⟨p, hp, rfl⟩, hv⟩
  have htot : ∀ p ∈ D, ∀ v ∈ p.2,
      (dlookup (((D.map Prod.snd).flatten).dedup.map
        (fun v => (v, entryFor D (R.map Prod.fst) ((sortByRankDesc R).map Prod.fst)
          ((D.map Prod.snd).flatten) v))) v).isSome := by
    intro p hp v hv
    rw [dlookup_map_entry _ (hmemdedup p hp v hv)]
    rfl
  obtain ⟨out, hout⟩ := buildOutput_isOk htot []
  refine ⟨out, ?_, buildOutput_keys_nodup hout (by simp), ?_⟩
  · simp only [remove_duplicate_values]
    rw [if_pos hcheck, hbm]
    exact hout
  · intro c v
    rw [buildOutput_mem hout]
    constructor
    · rintro (hm | ⟨l, h1, h2, h3⟩)
      · exact absurd hm OutMem_nil
      · have hv : v ∈ ((D.map Prod.snd).flatten).dedup := hmemdedup (c, l) h1 v h2
        rw [dlookup_map_entry _ hv] at h3
        simp only [Option.some.injEq] at h3
        exact ⟨⟨l, h1, h2⟩, h3⟩
    · rintro ⟨⟨l, h1, h2⟩, h3⟩
      right
      have hv : v ∈ ((D.map Prod.snd).flatten).dedup := hmemdedup (c, l) h1 v h2
      exact ⟨l, h1, h2, by rw [dlookup_map_entry _ hv, h3]⟩

theorem candidateCats_mem {D : List (String × List String)} {cats : List String}
    {c v : String} :
    c ∈ candidateCats D cats v ↔ c ∈ cats ∧ ∃ l, dlookup D c = some l ∧ v ∈ l := by
  unfold candidateCats
  rw [List.mem_filter]
  cases hd : dlookup D c with
  | none => simp [hd]
  | some l => simp [hd]

theorem candidateCats_nodup {D : List (String × List String)} {cats : List String}
    (hnd : cats.Nodup) (v : String) : (candidateCats D cats v).Nodup :=
  List.Nodup.filter _ hnd

theorem entryFor_isSome {D : List (String × List String)} {R : List (String × Int)}
    (hVR : ∀ k ∈ D.map Prod.fst, k ∈ R.map Prod.fst)
    (hndD : (D.map Prod.fst).Nodup) (hndR : (R.map Prod.fst).Nodup)
    {k v : String} {lv : List String} (hk : (k, lv) ∈ D) (hv : v ∈ lv) :
    ∃ c, entryFor D (R.map Prod.fst) ((sortByRankDesc R).map Prod.fst)
        ((D.map Prod.snd).flatten) v = some c
      ∧ c ∈ candidateCats D (R.map Prod.fst) v := by
  have hkcv : k ∈ candidateCats D (R.map Prod.fst) v := by
    rw [candidateCats_mem]
    exact ⟨hVR k (List.mem_map.mpr ⟨(k, lv), hk, rfl⟩), lv, mem_dlookup hndD hk, hv⟩
  have hne : candidateCats D (R.map Prod.fst) v ≠ [] := List.ne_nil_of_mem hkcv
  have hndcv : (candidateCats D (R.map Prod.fst) v).Nodup := candidateCats_nodup hndR v
  have hndpr : ((sortByRankDesc R).map Prod.fst).Nodup :=
    (((sortByRankDesc_perm R).map Prod.fst).nodup_iff).mpr hndR
  have hsubpr : ∀ c ∈ candidateCats D (R.map Prod.fst) v,
      c ∈ (sortByRankDesc R).map Prod.fst := fun c hc =>
    mem_sorted_keys.mpr (candidateCats_mem.mp hc).1
  unfold entryFor
  by_cases hcond : 10 * ((D.map Prod.snd).flatten).count v > 7 * (R.map Prod.fst).length
      ∧ "summary" ∈ candidateCats D (R.map Prod.fst) v
  · rw [if_pos hcond]
    exact ⟨"summary", rfl, hcond.2⟩
  · rw [if_neg hcond]
    obtain ⟨x, hx1, hx2⟩ := stp_mem hndcv hndpr hne hsubpr
    exact ⟨x, hx1, hx2⟩

theorem rdv_ok_check {D : List (String × List String)} {R : List (String × Int)}
    {out : List (String × List String)}
    (hok : remove_duplicate_values D R = .ok out) :
    ∀ k ∈ D.map Prod.fst, k ∈ R.map Prod.fst := by
  by_cases hc : ∀ k ∈ D.map Prod.fst, k ∈ (sortByRankDesc R).map Prod.fst
  · exact fun k hk => mem_sorted_keys.mp (hc k hk)
  · simp only [remove_duplicate_values] at hok
    rw [if_neg hc] at hok
    exact absurd hok (by simp)

theorem rdv_ok_ranked_observed {D : List (String × List String)} {R : List (String × Int)}
    {out : List (String × List String)}
    (hok : remove_duplicate_values D R = .ok out)
    (hne : (D.map Prod.snd).flatten ≠ []) :
    ∀ k ∈ R.map Prod.fst, k ∈ D.map Prod.fst := by
  intro k hk
  by_contra hmiss
  have hud : ((D.map Prod.snd).flatten).dedup ≠ [] := by
    obtain ⟨a, ha⟩ := List.exists_mem_of_ne_nil _ hne
    intro hnil
    have hma : a ∈ ((D.map Prod.snd).flatten).dedup := List.mem_dedup.mpr ha
    rw [hnil] at hma
    exact List.not_mem_nil a hma
  obtain ⟨v0, vs0, hv0⟩ := List.exists_cons_of_ne_nil hud
  have hcheck := rdv_ok_check hok
  simp only [remove_duplicate_values] at hok
  rw [if_pos (fun k hk => mem_sorted_keys.mpr (hcheck k hk)), hv0,
    buildVarMap_err hk hmiss v0 vs0] at hok
  exact absurd hok (by simp)

theorem find_difference_entry {left right : List (String × List String)} {k : String}
    {d : List String} :
    (k, d) ∈ find_difference left right ↔
      (∃ vs, (k, vs) ∈ left ∧
        d = (match dlookup right k with
          | some rvs => vs.dedup.filter (fun v => ¬ rvs.contains v)
          | none => vs)) ∧ ¬ d = [] := by
  unfold find_difference
  rw [List.mem_filter]
  constructor
  · rintro ⟨hmem, hne⟩
    rcases List.mem_map.mp hmem with ⟨p, hp, hgp⟩
    obtain ⟨pk, pvs⟩ := p
    refine ⟨?_, by simpa using hne⟩
    cases hd : dlookup right pk with
    | some rvs =>
      rw [hd] at hgp
      simp only at hgp
      have hk : pk = k := (Prod.mk.injEq .. ▸ hgp).1
      subst hk
      refine ⟨pvs, hp, ?_⟩
      rw [hd]
      exact ((Prod.mk.injEq .. ▸ hgp).2).symm
    | none =>
      rw [hd] at hgp
      simp only at hgp
      have hk : pk = k := (Prod.mk.injEq .. ▸ hgp).1
      subst hk
      refine ⟨pvs, hp, ?_⟩
      rw [hd]
      exact ((Prod.mk.injEq .. ▸ hgp).2).symm
  · rintro ⟨⟨vs, hvs, hd⟩, hne⟩
    refine ⟨List.mem_map.mpr ⟨(k, vs), hvs, ?_⟩, by simpa using hne⟩
    cases hdr : dlookup right k with
    | some rvs =>
      rw [hdr] at hd
      simp only [hdr]
      rw [hd]
    | none =>
      rw [hdr] at hd
      simp only [hdr]
      rw [hd]

theorem find_difference_entry_some {left right : List (String × List String)} {k : String}
    {d rvs : List String} (hdr : dlookup right k = some rvs) :
    (k, d) ∈ find_difference left right ↔
      (∃ vs, (k, vs) ∈ left ∧ d = vs.dedup.filter (fun v => ¬ rvs.contains v)) ∧ ¬ d = [] := by
  rw [find_difference_entry]
  constructor
  · rintro ⟨⟨vs, h1, h2⟩, h3⟩
    rw [hdr] at h2
    exact ⟨⟨vs, h1, h2⟩, h3⟩
  · rintro ⟨⟨vs, h1, h2⟩, h3⟩
    refine ⟨⟨vs, h1, ?_⟩, h3⟩
    rw [hdr]
    exact h2

theorem find_difference_entry_none {left right : List (String × List String)} {k : String}
    {d : List String} (hdr : dlookup right k = none) :
    (k, d) ∈ find_difference left right ↔
      (∃ vs, (k, vs) ∈ left ∧ d = vs) ∧ ¬ d = [] := by
  rw [find_difference_entry]
  constructor
  · rintro ⟨⟨vs, h1, h2⟩, h3⟩
    rw [hdr] at h2
    exact ⟨⟨vs, h1, h2⟩, h3⟩
  · rintro ⟨⟨vs, h1, h2⟩, h3⟩
    refine ⟨⟨vs, h1, ?_⟩, h3⟩
    rw [hdr]
    exact h2

theorem find_difference_mem {left right : List (String × List String)} {k v : String} :
    (∃ d, (k, d) ∈ find_difference left right ∧ v ∈ d) ↔
      ∃ vs, (k, vs) ∈ left ∧ v ∈ vs ∧ ∀ rvs, dlookup right k = some rvs → v ∉ rvs := by
  cases hdr : dlookup right k with
  | some rvs =>
    constructor
    · rintro ⟨d, hd, hv⟩
      obtain ⟨⟨vs, hvs, hdef⟩, _⟩ := (find_difference_entry_some hdr).mp hd
      rw [hdef, List.mem_filter] at hv
      refine ⟨vs, hvs, List.mem_dedup.mp hv.1, ?_⟩
      intro rvs' hrvs'
      have hre : rvs = rvs' := by injection hrvs'
      subst hre
      have h2 := hv.2
      simp at h2
      exact h2
    · rintro ⟨vs, hvs, hv, hnr⟩
      have hvd : v ∈ vs.dedup.filter (fun v => ¬ rvs.contains v) := by
        rw [List.mem_filter]
        exact ⟨List.mem_dedup.mpr hv, by simpa using hnr rvs rfl⟩
      exact ⟨vs.dedup.filter (fun v => ¬ rvs.contains v),
        (find_difference_entry_some hdr).mpr ⟨⟨vs, hvs, rfl⟩, List.ne_nil_of_mem hvd⟩, hvd⟩
  | none =>
    constructor
    · rintro ⟨d, hd, hv⟩
      obtain ⟨⟨vs, hvs, hdef⟩, _⟩ := (find_difference_entry_none hdr).mp hd
      rw [hdef] at hv
      exact ⟨vs, hvs, hv, fun rvs hrvs => by cases hrvs⟩
    · rintro ⟨vs, hvs, hv, hnr⟩
      exact ⟨vs, (find_difference_entry_none hdr).mpr ⟨⟨vs, hvs, rfl⟩,
        List.ne_nil_of_mem hv⟩, hv⟩

theorem update_tables_step_eq (n : Int) :
    (fun (s : List (String × Int)) (t : String) =>
      if t = "summary" then dinsert s t n
      else if t = "misc" then dinsert s t (n - 1) else dinsert s t 1)
    = fun s t => dinsert s t (rankFor t n) := by
  funext s t
  unfold rankFor
  by_cases h1 : t = "summary"
  · simp [h1]
  · by_cases h2 : t = "misc" <;> simp [h1, h2]

theorem foldl_dinsert_keys_mem (n : Int) :
    ∀ (L : List String) (S : List (String × Int)) (a : String),
    a ∈ S.map Prod.fst ∨ a ∈ L →
    a ∈ (L.foldl (fun s t => dinsert s t (rankFor t n)) S).map Prod.fst := by
  intro L
  induction L with
  | nil =>
    intro S a h
    rcases h with h | h
    · exact h
    · simp at h
  | cons t ts ih =>
    intro S a h
    rw [List.foldl_cons]
    apply ih
    rcases h with h | h
    · exact Or.inl (dinsert_keys_mem S t a _ (Or.inl h))
    · rcases List.mem_cons.mp h with h1 | h1
      · exact Or.inl (dinsert_keys_mem S t a _ (Or.inr h1))
      · exact Or.inr h1

theorem foldl_dinsert_lookup_notmem (n : Int) :
    ∀ (L : List String) (S : List (String × Int)) (a : String), a ∉ L →
    dlookup (L.foldl (fun s t => dinsert s t (rankFor t n)) S) a = dlookup S a := by
  intro L
  induction L with
  | nil => intro S a _; rfl
  | cons t ts ih =>
    intro S a ha
    have hta : ¬ t = a := by
      intro he
      exact ha (by rw [← he]; exact List.mem_cons_self t ts)
    rw [List.foldl_cons, ih _ _ (fun h => ha (List.mem_cons_of_mem _ h)),
      dlookup_dinsert, if_neg hta]

theorem foldl_dinsert_lookup_mem (n : Int) :
    ∀ (L : List String) (S : List (String × Int)) (a : String), a ∈ L → L.Nodup →
    dlookup (L.foldl (fun s t => dinsert s t (rankFor t n)) S) a = some (rankFor a n) := by
  intro L
  induction L with
  | nil => intro S a h _; simp at h
  | cons t ts ih =>
    intro S a ha hnd
    rw [List.nodup_cons] at hnd
    rw [List.foldl_cons]
    by_cases hta : t = a
    · subst hta
      rw [foldl_dinsert_lookup_notmem n ts _ t hnd.1, dlookup_dinsert, if_pos rfl]
    · have ha' : a ∈ ts := by
        rcases List.mem_cons.mp ha with h | h
        · exact absurd h.symm hta
        · exact h
      exact ih _ a ha' hnd.2

theorem stp_min_rank {R : List (String × Int)} (hndR : (R.map Prod.fst).Nodup)
    {cv : List String} (hcv : cv.Nodup) (hsub : ∀ c ∈ cv, c ∈ R.map Prod.fst)
    (hne : cv ≠ []) {m : String} {rm : Int} (hrm : dlookup R m = some rm) (hm : m ∈ cv)
    (hmin : ∀ c ∈ cv, c ≠ m → ∀ r, dlookup R c = some r → rm < r) :
    select_top_priority cv ((sortByRankDesc R).map Prod.fst) = some m := by
  have hndpr : ((sortByRankDesc R).map Prod.fst).Nodup :=
    (((sortByRankDesc_perm R).map Prod.fst).nodup_iff).mpr hndR
  have hsubpr : ∀ c ∈ cv, c ∈ (sortByRankDesc R).map Prod.fst :=
    fun c hc => mem_sorted_keys.mpr (hsub c hc)
  rw [stp_filter_getLast hcv hndpr hne hsubpr]
  -- the filtered priority list is pairwise rank-descending
  have hlook : ∀ x ∈ sortByRankDesc R, dlookup R x.1 = some x.2 := by
    intro x hx
    exact mem_dlookup hndR ((sortByRankDesc_perm R).mem_iff.mp hx)
  have hpw0 : (sortByRankDesc R).Pairwise (fun a b => b.2 ≤ a.2) := sortByRankDesc_pairwise R
  have hpw1 : (sortByRankDesc R).Pairwise
      (fun a b => ∀ ra rb, dlookup R a.1 = some ra → dlookup R b.1 = some rb → rb ≤ ra) := by
    refine List.Pairwise.imp_of_mem ?_ hpw0
    intro a b ha hb hle ra rb hra hrb
    rw [hlook a ha] at hra
    rw [hlook b hb] at hrb
    cases hra
    cases hrb
    exact hle
  have hpw2 : ((sortByRankDesc R).map Prod.fst).Pairwise
      (fun a b => ∀ ra rb, dlookup R a = some ra → dlookup R b = some rb → rb ≤ ra) := by
    rw [List.pairwise_map]
    exact hpw1
  have hpwF : (((sortByRankDesc R).map Prod.fst).filter (fun c => cv.contains c)).Pairwise
      (fun a b => ∀ ra rb, dlookup R a = some ra → dlookup R b = some rb → rb ≤ ra) :=
    List.Pairwise.filter _ hpw2
  set F := ((sortByRankDesc R).map Prod.fst).filter (fun c => cv.contains c) with hF
  have hmF : m ∈ F := by
    rw [hF, List.mem_filter]
    exact ⟨hsubpr m hm, by simpa using hm⟩
  have hFne : F ≠ [] := List.ne_nil_of_mem hmF
  rw [List.getLast?_eq_getLast _ hFne]
  congr 1
  by_contra hzm
  -- the last element z differs from m, yet z is a candidate, so rm < rank z;
  -- but m occurs before z in the rank-descending list F, so rank z ≤ rm.
  have hzF : F.getLast hFne ∈ F := List.getLast_mem hFne
  have hzcv : F.getLast hFne ∈ cv := by
    have := (List.mem_filter.mp hzF).2
    simpa using this
  have hzR : F.getLast hFne ∈ R.map Prod.fst := hsub _ hzcv
  obtain ⟨rz, hrz⟩ : ∃ rz, dlookup R (F.getLast hFne) = some rz := by
    have := dlookup_isSome_iff.mpr hzR
    cases hl : dlookup R (F.getLast hFne) with
    | none => rw [hl] at this; simp at this
    | some rz => exact ⟨rz, rfl⟩
  have hlt : rm < rz := hmin _ hzcv hzm rz hrz
  have hsplit : F.dropLast ++ [F.getLast hFne] = F := List.dropLast_append_getLast hFne
  have hmdl : m ∈ F.dropLast := by
    rcases (List.mem_append.mp (hsplit ▸ hmF)) with h | h
    · exact h
    · simp at h
      exact absurd h.symm hzm
  have hpwA : (F.dropLast ++ [F.getLast hFne]).Pairwise
      (fun a b => ∀ ra rb, dlookup R a = some ra → dlookup R b = some rb → rb ≤ ra) := by
    rw [hsplit]
    exact hpwF
  rw [List.pairwise_append] at hpwA
  have hle : rz ≤ rm := hpwA.2.2 m hmdl (F.getLast hFne) (by simp) rm rz hrm hrz
  omega

theorem get_table_types_loop_none {pages : List Page} (h : ∃ p ∈ pages, statsTables p = []) :
    ∀ acc, get_table_types_loop pages acc = none := by
  induction pages with
  | nil => simp at h
  | cons p ps ih =>
    intro acc
    rw [get_table_types_loop]
    by_cases hp : statsTables p = []
    · rw [if_pos hp]
    · rw [if_neg hp]
      apply ih
      rcases h with ⟨q, hq, hqe⟩
      rcases List.mem_cons.mp hq with h1 | h1
      · exact absurd (h1 ▸ hqe) hp
      · exact ⟨q, h1, hqe⟩

theorem update_tables_eq (S : List (String × Int)) (O : List String) :
    update_tables S O =
      if ¬ S = [] ∧ ∀ t ∈ O.dedup, t ∈ S.map Prod.fst then (S, none)
      else ((O.dedup.filter (fun t => ¬ t ∈ S.map Prod.fst)).foldl
        (fun s t => dinsert s t (rankFor t (O.dedup.length : Int))) S,
        some (O.dedup.filter (fun t => ¬ t ∈ S.map Prod.fst))) := by
  simp only [update_tables]
  rw [update_tables_step_eq]

theorem remove_duplicate_values_low_rank_counterexample :
    remove_duplicate_values [("A", ["x"]), ("B", ["x"])] [("A", (1 : Int)), ("B", 3)]
      = .ok [("A", ["x"])]
    ∧ OutMem [("A", ["x"])] "A" "x" ∧ ¬ OutMem [("A", ["x"])] "B" "x" := by
  have hstp : select_top_priority ["A", "B"] ["B", "A"] = some "A" := by
    rw [stp_filter_getLast (by decide) (by decide) (by decide) (by decide)]
    rfl
  refine ⟨?_, ⟨["x"], by rfl, by decide⟩, ?_⟩
  · simp [remove_duplicate_values, buildVarMap, catListFor, dlookup, buildOutput, appendVars,
      dappend, sortByRankDesc, insertByRankDesc, List.dedup, List.pwFilter, hstp]
  · rintro ⟨l, hl, _⟩
    simp [dlookup] at hl

theorem remove_duplicate_values_min_rank_assignment
    (D : List (String × List String)) (R : List (String × Int))
    (hndD : (D.map Prod.fst).Nodup) (hndR : (R.map Prod.fst).Nodup)
    (hVR : ∀ k ∈ D.map Prod.fst, k ∈ R.map Prod.fst)
    (hRV : ∀ k ∈ R.map Prod.fst, k ∈ D.map Prod.fst)
    (v m : String) (rm : Int) (lv : List String)
    (hm : (m, lv) ∈ D) (hv : v ∈ lv) (hrm : dlookup R m = some rm)
    (hmin : ∀ p ∈ R, ¬ p.1 = m → v ∈ (dlookup D p.1).getD [] → rm < p.2)
    (hnosum : ¬ (10 * ((D.map Prod.snd).flatten).count v > 7 * R.length
      ∧ v ∈ (dlookup D "summary").getD [])) :
    ∃ out, remove_duplicate_values D R = .ok out ∧ OutMem out m v
      ∧ ∀ c, OutMem out c v → c = m := by
  obtain ⟨out, hout, hnd, hiff⟩ := rdv_ok_char D R hVR hRV
  have hcvm : m ∈ candidateCats D (R.map Prod.fst) v := by
    rw [candidateCats_mem]
    exact ⟨hVR m (List.mem_map.mpr ⟨(m, lv), hm, rfl⟩), lv, mem_dlookup hndD hm, hv⟩
  have hcond : ¬ (10 * ((D.map Prod.snd).flatten).count v > 7 * (R.map Prod.fst).length
      ∧ "summary" ∈ candidateCats D (R.map Prod.fst) v) := by
    rintro ⟨h1, h2⟩
    apply hnosum
    refine ⟨by simpa using h1, ?_⟩
    obtain ⟨-, l, hl, hvl⟩ := candidateCats_mem.mp h2
    rw [hl]
    exact hvl
  have hstp : select_top_priority (candidateCats D (R.map Prod.fst) v)
      ((sortByRankDesc R).map Prod.fst) = some m := by
    apply stp_min_rank hndR (candidateCats_nodup hndR v)
      (fun c hc => (candidateCats_mem.mp hc).1) (List.ne_nil_of_mem hcvm) hrm hcvm
    intro c hc hcm r hr
    obtain ⟨hcR, l, hl, hvl⟩ := candidateCats_mem.mp hc
    exact hmin (c, r) (dlookup_eq_some_mem hr) hcm (by rw [hl]; exact hvl)
  have hentry : entryFor D (R.map Prod.fst) ((sortByRankDesc R).map Prod.fst)
      ((D.map Prod.snd).flatten) v = some m := by
    unfold entryFor
    rw [if_neg hcond]
    exact hstp
  refine ⟨out, hout, ?_, ?_⟩
  · rw [hiff]
    exact ⟨⟨lv, hm, hv⟩, hentry⟩
  · intro c hc
    have h2 := ((hiff c v).mp hc).2
    rw [hentry] at h2
    injection h2 with h3
    exact h3.symm

theorem remove_duplicate_values_min_rank_assignment_witness :
    ∃ out, remove_duplicate_values [("A", ["x"]), ("B", ["x"])] [("A", (1 : Int)), ("B", 3)]
      = .ok out ∧ OutMem out "A" "x" ∧ ∀ c, OutMem out c "x" → c = "A" :=
  remove_duplicate_values_min_rank_assignment _ _ (by decide) (by decide) (by decide)
    (by decide) "x" "A" 1 ["x"] (by decide) (by decide) (by decide) (by decide) (by decide)

theorem remove_duplicate_values_summary_frequency_rule
    (D : List (String × List String)) (R : List (String × Int))
    (hndD : (D.map Prod.fst).Nodup) (hndR : (R.map Prod.fst).Nodup)
    (hVR : ∀ k ∈ D.map Prod.fst, k ∈ R.map Prod.fst)
    (hRV : ∀ k ∈ R.map Prod.fst, k ∈ D.map Prod.fst)
    (v : String) (hsv : v ∈ (dlookup D "summary").getD [])
    (hfreq : 10 * ((D.map Prod.snd).flatten).count v > 7 * R.length) :
    ∃ out, remove_duplicate_values D R = .ok out ∧ OutMem out "summary" v
      ∧ ∀ c, OutMem out c v → c = "summary" := by
  obtain ⟨ls, hls⟩ : ∃ ls, dlookup D "summary" = some ls := by
    cases hd : dlookup D "summary" with
    | none => rw [hd] at hsv; simp at hsv
    | some ls => exact ⟨ls, rfl⟩
  rw [hls] at hsv
  have hsv' : v ∈ ls := by simpa using hsv
  have hsmem : ("summary", ls) ∈ D := dlookup_eq_some_mem hls
  have hcv : "summary" ∈ candidateCats D (R.map Prod.fst) v := by
    rw [candidateCats_mem]
    exact ⟨hVR "summary" (List.mem_map.mpr ⟨("summary", ls), hsmem, rfl⟩), ls, hls, hsv'⟩
  have hentry : entryFor D (R.map Prod.fst) ((sortByRankDesc R).map Prod.fst)
      ((D.map Prod.snd).flatten) v = some "summary" := by
    unfold entryFor
    rw [if_pos ⟨by simpa using hfreq, hcv⟩]
  obtain ⟨out, hout, hnd, hiff⟩ := rdv_ok_char D R hVR hRV
  refine ⟨out, hout, ?_, ?_⟩
  · rw [hiff]
    exact ⟨⟨ls, hsmem, hsv'⟩, hentry⟩
  · intro c hc
    have h2 := ((hiff c v).mp hc).2
    rw [hentry] at h2
    injection h2 with h3
    exact h3.symm

theorem remove_duplicate_values_summary_frequency_rule_witness :
    ∃ out, remove_duplicate_values
      [("summary", ["x"]), ("misc", []), ("c1", ["x"]), ("c2", ["x"]), ("c3", ["x"]),
        ("c4", ["x"]), ("c5", [])]
      [("summary", (7 : Int)), ("misc", 6), ("c1", 1), ("c2", 1), ("c3", 1), ("c4", 1),
        ("c5", 1)]
      = .ok out ∧ OutMem out "summary" "x" ∧ ∀ c, OutMem out c "x" → c = "summary" :=
  remove_duplicate_values_summary_frequency_rule _ _ (by decide) (by decide) (by decide)
    (by decide) "x" (by decide) (by decide)

theorem remove_duplicate_values_unique_ownership
    (D : List (String × List String)) (R : List (String × Int))
    (hndD : (D.map Prod.fst).Nodup) (hndR : (R.map Prod.fst).Nodup)
    (out : List (String × List String))
    (hok : remove_duplicate_values D R = .ok out)
    (k v : String) (lv : List String) (hk : (k, lv) ∈ D) (hv : v ∈ lv) :
    (out.map Prod.fst).Nodup ∧ ∃! c, OutMem out c v := by
  have hvfl : v ∈ (D.map Prod.snd).flatten :=
    List.mem_flatten.mpr ⟨lv, List.mem_map.mpr ⟨(k, lv), hk, rfl⟩, hv⟩
  have hne : (D.map Prod.snd).flatten ≠ [] := List.ne_nil_of_mem hvfl
  have hVR := rdv_ok_check hok
  have hRV := rdv_ok_ranked_observed hok hne
  obtain ⟨out', hout', hnd', hiff⟩ := rdv_ok_char D R hVR hRV
  have heq : out = out' := by
    rw [hok] at hout'
    injection hout'
  subst heq
  refine ⟨hnd', ?_⟩
  obtain ⟨c0, hc0, hc0cv⟩ := entryFor_isSome hVR hndD hndR hk hv
  obtain ⟨-, l0, hl0, hvl0⟩ := candidateCats_mem.mp hc0cv
  refine ⟨c0, ?_, ?_⟩
  · show OutMem out c0 v
    rw [hiff]
    exact ⟨⟨l0, dlookup_eq_some_mem hl0, hvl0⟩, hc0⟩
  · intro c hc
    have h2 := ((hiff c v).mp hc).2
    rw [hc0] at h2
    injection h2 with h3
    exact h3.symm

theorem remove_duplicate_values_unique_ownership_witness :
    (([("summary", ["x"])] : List (String × List String)).map Prod.fst).Nodup
    ∧ ∃! c, OutMem [("summary", ["x"])] c "x" :=
  remove_duplicate_values_unique_ownership [("summary", ["x"])] [("summary", 1)]
    (by decide) (by decide) [("summary", ["x"])] (by rfl) "summary" "x" ["x"]
    (by decide) (by decide)

theorem remove_duplicate_values_unranked_message_names_ranked_set :
    remove_duplicate_values [("passing", ["x"])] [("summary", (1 : Int))]
      = .error (.unranked ["summary"])
    ∧ "passing" ∉ (["summary"] : List String)
    ∧ "summary" ∈ (["summary"] : List String) :=
  ⟨by rfl, by decide, by decide⟩

theorem remove_duplicate_values_missing_category_key_error
    (D : List (String × List String)) (R : List (String × Int))
    (hVR : ∀ k ∈ D.map Prod.fst, k ∈ R.map Prod.fst)
    (c0 : String) (hc0R : c0 ∈ R.map Prod.fst) (hc0D : c0 ∉ D.map Prod.fst)
    (hobs : ¬ (D.map Prod.snd).flatten = []) :
    remove_duplicate_values D R = .error .keyError := by
  obtain ⟨a, ha⟩ := List.exists_mem_of_ne_nil _ hobs
  have hud : ((D.map Prod.snd).flatten).dedup ≠ [] := by
    intro hnil
    have hma : a ∈ ((D.map Prod.snd).flatten).dedup := List.mem_dedup.mpr ha
    rw [hnil] at hma
    exact List.not_mem_nil a hma
  obtain ⟨v0, vs0, hv0⟩ := List.exists_cons_of_ne_nil hud
  simp only [remove_duplicate_values]
  rw [if_pos (fun k hk => mem_sorted_keys.mpr (hVR k hk)), hv0,
    buildVarMap_err hc0R hc0D v0 vs0]

theorem remove_duplicate_values_missing_category_key_error_witness :
    remove_duplicate_values [("a", ["x"])] [("a", (1 : Int)), ("b", 2)]
      = .error .keyError :=
  remove_duplicate_values_missing_category_key_error [("a", ["x"])] [("a", 1), ("b", 2)]
    (by decide) "b" (by decide) (by decide) (by decide)

theorem update_tables_rerun_and_persist (S : List (String × Int)) (O : List String)
    (hO : ¬ O = []) :
    (update_tables S O).2 = (update_tables S O).2
    ∧ update_tables (update_tables S O).1 O = ((update_tables S O).1, none) := by
  refine ⟨rfl, ?_⟩
  have hTne : O.dedup ≠ [] := by
    obtain ⟨a, ha⟩ := List.exists_mem_of_ne_nil _ hO
    intro hnil
    have hma := List.mem_dedup.mpr ha
    rw [hnil] at hma
    exact List.not_mem_nil a hma
  by_cases hb : ¬ S = [] ∧ ∀ t ∈ O.dedup, t ∈ S.map Prod.fst
  · have h1 : update_tables S O = (S, none) := by
      rw [update_tables_eq, if_pos hb]
    rw [h1]
    rw [update_tables_eq, if_pos hb]
  · have h1 : (update_tables S O).1
        = (O.dedup.filter (fun t => ¬ t ∈ S.map Prod.fst)).foldl
            (fun s t => dinsert s t (rankFor t (O.dedup.length : Int))) S := by
      rw [update_tables_eq, if_neg hb]
    have hkeys : ∀ t ∈ O.dedup, t ∈ (update_tables S O).1.map Prod.fst := by
      intro t ht
      rw [h1]
      apply foldl_dinsert_keys_mem
      by_cases hts : t ∈ S.map Prod.fst
      · exact Or.inl hts
      · exact Or.inr (List.mem_filter.mpr ⟨ht, by simpa using hts⟩)
    have hne1 : ¬ (update_tables S O).1 = [] := by
      obtain ⟨a, ha⟩ := List.exists_mem_of_ne_nil _ hTne
      intro hnil
      have hma := hkeys a ha
      rw [hnil] at hma
      simp at hma
    rw [update_tables_eq ((update_tables S O).1) O, if_pos ⟨hne1, hkeys⟩]

theorem update_tables_rerun_and_persist_witness :
    (update_tables [] ["summary"]).2 = (update_tables [] ["summary"]).2
    ∧ update_tables (update_tables [] ["summary"]).1 ["summary"]
      = ((update_tables [] ["summary"]).1, none) :=
  update_tables_rerun_and_persist [] ["summary"] (by decide)

theorem update_tables_noop_on_subset (S : List (String × Int)) (O : List String)
    (hS : ¬ S = []) (hsub : ∀ t ∈ O, t ∈ S.map Prod.fst) :
    update_tables S O = (S, none) := by
  rw [update_tables_eq, if_pos ⟨hS, fun t ht => hsub t (List.mem_dedup.mp ht)⟩]

theorem update_tables_noop_on_subset_witness :
    update_tables [("summary", (2 : Int)), ("passing", 1)] ["summary"]
      = ([("summary", 2), ("passing", 1)], none) :=
  update_tables_noop_on_subset [("summary", 2), ("passing", 1)] ["summary"]
    (by decide) (by decide)

theorem update_tables_summary_not_highest_counterexample :
    dlookup (update_tables [("passing", (10 : Int))] ["summary"]).1 "summary" = some 1
    ∧ dlookup (update_tables [("passing", (10 : Int))] ["summary"]).1 "passing" = some 10
    ∧ (1 : Int) < 10 := by decide

theorem update_tables_new_rank_assignment (S : List (String × Int)) (O : List String)
    (A : List String) (hA : (update_tables S O).2 = some A) :
    (∀ t ∈ A, dlookup (update_tables S O).1 t
      = some (if t = "summary" then (O.dedup.length : Int)
        else if t = "misc" then (O.dedup.length : Int) - 1 else 1))
    ∧ (∀ k r, dlookup S k = some r → dlookup (update_tables S O).1 k = some r)
    ∧ (∀ t, t ∈ A ↔ t ∈ O ∧ ¬ t ∈ S.map Prod.fst) := by
  by_cases hb : ¬ S = [] ∧ ∀ t ∈ O.dedup, t ∈ S.map Prod.fst
  · rw [update_tables_eq, if_pos hb] at hA
    exact absurd hA (by simp)
  · rw [update_tables_eq, if_neg hb] at hA
    have hAeq : A = O.dedup.filter (fun t => ¬ t ∈ S.map Prod.fst) := by
      have := hA
      simp only at this
      injection this with h3
      exact h3.symm
    have h1 : (update_tables S O).1
        = (O.dedup.filter (fun t => ¬ t ∈ S.map Prod.fst)).foldl
            (fun s t => dinsert s t (rankFor t (O.dedup.length : Int))) S := by
      rw [update_tables_eq, if_neg hb]
    refine ⟨?_, ?_, ?_⟩
    · intro t ht
      rw [h1]
      rw [hAeq] at ht
      have hnd : (O.dedup.filter (fun t => ¬ t ∈ S.map Prod.fst)).Nodup :=
        List.Nodup.filter _ (List.nodup_dedup O)
      exact foldl_dinsert_lookup_mem (O.dedup.length : Int) _ S t ht hnd
    · intro k r hk
      rw [h1]
      have hkS : k ∈ S.map Prod.fst := by
        have : (dlookup S k).isSome := by rw [hk]; rfl
        exact dlookup_isSome_iff.mp this
      have hknot : k ∉ O.dedup.filter (fun t => ¬ t ∈ S.map Prod.fst) := by
        intro hmem
        exact absurd hkS (by simpa using (List.mem_filter.mp hmem).2)
      rw [foldl_dinsert_lookup_notmem _ _ _ _ hknot]
      exact hk
    · intro t
      rw [hAeq, List.mem_filter]
      constructor
      · rintro ⟨h2, h3⟩
        exact ⟨List.mem_dedup.mp h2, by simpa using h3⟩
      · rintro ⟨h2, h3⟩
        exact ⟨List.mem_dedup.mpr h2, by simpa using h3⟩

theorem update_tables_new_rank_assignment_witness :
    (update_tables [] ["summary", "misc", "passing"]).2
      = some ["summary", "misc", "passing"]
    ∧ dlookup (update_tables [] ["summary", "misc", "passing"]).1 "summary" = some 3
    ∧ dlookup (update_tables [] ["summary", "misc", "passing"]).1 "misc" = some 2
    ∧ dlookup (update_tables [] ["summary", "misc", "passing"]).1 "passing" = some 1 := by
  have h := update_tables_new_rank_assignment [] ["summary", "misc", "passing"]
    ["summary", "misc", "passing"] (by decide)
  refine ⟨by decide, ?_, ?_, ?_⟩
  · rw [h.1 "summary" (by decide)]
    decide
  · rw [h.1 "misc" (by decide)]
    decide
  · rw [h.1 "passing" (by decide)]
    decide

theorem find_difference_delta_characterization
    (left right : List (String × List String)) (k v : String) :
    ((∃ d, (k, d) ∈ find_difference left right ∧ v ∈ d) ↔
      ∃ vs, (k, vs) ∈ left ∧ v ∈ vs ∧ ∀ rvs, dlookup right k = some rvs → v ∉ rvs)
    ∧ ∀ d, (k, d) ∈ find_difference left right → ¬ d = [] :=
  ⟨find_difference_mem, fun _ hd => (find_difference_entry.mp hd).2⟩

theorem find_difference_delta_characterization_witness :
    find_difference [("passing", ["cmp"]), ("shooting", ["att"])]
      [("passing", ["cmp", "att"])] = [("shooting", ["att"])]
    ∧ find_difference [("passing", ["cmp", "att"])]
      [("passing", ["cmp"]), ("shooting", ["att"])] = [("passing", ["att"])]
    ∧ ((∃ d, ("shooting", d) ∈ find_difference [("passing", ["cmp"]), ("shooting", ["att"])]
          [("passing", ["cmp", "att"])] ∧ "att" ∈ d) ↔
        ∃ vs, ("shooting", vs) ∈ [("passing", ["cmp"]), ("shooting", ["att"])]
          ∧ "att" ∈ vs
          ∧ ∀ rvs, dlookup [("passing", ["cmp", "att"])] "shooting" = some rvs
            → "att" ∉ rvs) :=
  ⟨by decide, by decide,
    (find_difference_delta_characterization [("passing", ["cmp"]), ("shooting", ["att"])]
      [("passing", ["cmp", "att"])] "shooting" "att").1⟩

theorem get_all_variables_single_page_failure_counterexample :
    (get_table_types [pageWithStatsTable]).isSome = true
    ∧ get_all_variables [pageWithStatsTable, pageWithoutTables]
      = .error "No valid stats tables found." :=
  ⟨by rfl, by rfl⟩

theorem get_all_variables_any_page_fatal (pages : List Page)
    (h : ∃ p ∈ pages, statsTables p = []) :
    get_table_types pages = none
    ∧ get_all_variables pages = .error "No valid stats tables found." := by
  have h1 : get_table_types pages = none := get_table_types_loop_none h []
  refine ⟨h1, ?_⟩
  rw [get_all_variables, h1]

theorem get_all_variables_any_page_fatal_witness :
    get_table_types [pageWithStatsTable, pageWithoutTables] = none
    ∧ get_all_variables [pageWithStatsTable, pageWithoutTables]
      = .error "No valid stats tables found." :=
  get_all_variables_any_page_fatal _ (by decide)

end FbrefScrapy
